import Mathlib

/-!
Verification development for the LZSS stream compressor of `lzss_comp.c`
(`LZSS_CompressData` and its helper routines).

The C source is embedded shallowly: the two file-scope arrays
(`LZSS_window` and `tree`) become total functions backed by explicit
pointwise updates, every C statement becomes one sequential state update
(reads always see the updates made by earlier statements of the same
function, which matters because of index aliasing), and the two while
loops whose bound is not syntactic (the descent of `LZSS_AddNode` and the
chain walk of `LZSS_FindNextNode`) take an explicit fuel that is far
larger than any well-formed tree depth.  C file-scope arrays have static
storage duration, so both arrays start zero-initialized.

The spec reading of the three truncated macros is adopted, as §9 of the
spec directs: `LZSS_BREAK_EVEN = (1+10+4)/9 = 1`, `LZSS_LOOK_AHEAD_SIZE =
16+1 = 17`, `LZSS_MOD_WINDOW a = a &&& (WINDOW_SIZE-1)` which for the
power-of-two window equals `a % LZSS_WINDOW_SIZE`, and `elseif` in
`LZSS_DeleteNode` is read as `else if`.
-/

namespace LZSS

/-- `LZSS_INDEX_BIT_COUNT`: bits allocated to indices into the text window. -/
def LZSS_INDEX_BIT_COUNT : Nat := 10

/-- `LZSS_LENGTH_BIT_COUNT`: bits allocated for the length of an encoded phrase. -/
def LZSS_LENGTH_BIT_COUNT : Nat := 4

/-- `LZSS_WINDOW_SIZE = 1 <<< LZSS_INDEX_BIT_COUNT = 1024`. -/
def LZSS_WINDOW_SIZE : Nat := 1 <<< LZSS_INDEX_BIT_COUNT

/-- `LZSS_BREAK_EVEN = (1 + LZSS_INDEX_BIT_COUNT + LZSS_LENGTH_BIT_COUNT) / 9 = 1`. -/
def LZSS_BREAK_EVEN : Nat := (1 + LZSS_INDEX_BIT_COUNT + LZSS_LENGTH_BIT_COUNT) / 9

/-- `LZSS_END_OF_STREAM = 0`. -/
def LZSS_END_OF_STREAM : Nat := 0

/-- `LZSS_RAW_LOOK_AHEAD_SIZE = 1 <<< LZSS_LENGTH_BIT_COUNT = 16`. -/
def LZSS_RAW_LOOK_AHEAD_SIZE : Nat := 1 <<< LZSS_LENGTH_BIT_COUNT

/-- `LZSS_LOOK_AHEAD_SIZE = LZSS_RAW_LOOK_AHEAD_SIZE + LZSS_BREAK_EVEN = 17`. -/
def LZSS_LOOK_AHEAD_SIZE : Nat := LZSS_RAW_LOOK_AHEAD_SIZE + LZSS_BREAK_EVEN

/-- `LZSS_TREE_ROOT = LZSS_WINDOW_SIZE`. -/
def LZSS_TREE_ROOT : Nat := LZSS_WINDOW_SIZE

/-- `UNUSED = 0`: null index for the tree structure. -/
def UNUSED : Nat := 0

/-- `LZSS_MOD_WINDOW a = a &&& (LZSS_WINDOW_SIZE - 1)`, which for the
power-of-two window size equals `a % LZSS_WINDOW_SIZE`. -/
def LZSS_MOD_WINDOW (a : Nat) : Nat := a % LZSS_WINDOW_SIZE

/-- One record of the file-scope array
`struct { Uint16_T parent; Uint16_T smallChild; Uint16_T largeChild; } tree[...]`. -/
structure TreeNode where
  parent : Nat
  smallChild : Nat
  largeChild : Nat
deriving DecidableEq, Repr

/-- A record with all three links `UNUSED` (the zero-initialized state and the
state each detach leaves behind). -/
def TreeNode.clear : TreeNode := ⟨UNUSED, UNUSED, UNUSED⟩

/-- The two file-scope arrays: `Uint8_T LZSS_window[LZSS_WINDOW_SIZE]` and
`tree[LZSS_WINDOW_SIZE + 1]`, as total functions from indices. -/
structure Machine where
  window : Nat → Nat
  tree : Nat → TreeNode

/-- The zero-initialized arrays (C static storage duration). -/
def Machine.init : Machine := ⟨fun _ => 0, fun _ => TreeNode.clear⟩

/-- Pointwise update of a tree array. -/
def updTree (t : Nat → TreeNode) (i : Nat) (v : TreeNode) : Nat → TreeNode :=
  fun j => if j = i then v else t j

/-- `tree[i].parent = p;` -/
def updParent (t : Nat → TreeNode) (i p : Nat) : Nat → TreeNode :=
  updTree t i { t i with parent := p }

/-- `tree[i].smallChild = c;` -/
def updSmall (t : Nat → TreeNode) (i c : Nat) : Nat → TreeNode :=
  updTree t i { t i with smallChild := c }

/-- `tree[i].largeChild = c;` -/
def updLarge (t : Nat → TreeNode) (i c : Nat) : Nat → TreeNode :=
  updTree t i { t i with largeChild := c }

/-- Pointwise update of the window array. -/
def updWindow (w : Nat → Nat) (i v : Nat) : Nat → Nat :=
  fun j => if j = i then v else w j

/-- `LZSS_InitTree`: establish a tree with the single real node `rootChild`. -/
def LZSS_InitTree (m : Machine) (rootChild : Nat) : Machine :=
  let t1 := updParent m.tree LZSS_TREE_ROOT UNUSED
  let t2 := updSmall t1 LZSS_TREE_ROOT UNUSED
  let t3 := updLarge t2 LZSS_TREE_ROOT rootChild
  let t4 := updParent t3 rootChild LZSS_TREE_ROOT
  let t5 := updLarge t4 rootChild UNUSED
  let t6 := updSmall t5 rootChild UNUSED
  { m with tree := t6 }

/-- `LZSS_ContractNode`: replace `oldNode` with a node already in the tree.
The statements run in C order; the condition re-reads `tree[oldNode].parent`
after the first write (visible when `newNode = oldNode`). -/
def LZSS_ContractNode (m : Machine) (oldNode newNode : Nat) : Machine :=
  let t1 := updParent m.tree newNode ((m.tree oldNode).parent)
  let p := (t1 oldNode).parent
  let t2 := if (t1 p).largeChild = oldNode then updLarge t1 p newNode
            else updSmall t1 p newNode
  let t3 := updTree t2 oldNode TreeNode.clear
  { m with tree := t3 }

/-- `LZSS_ReplaceNode`: replace `oldNode` by `newNode`, a node not previously
in the tree.  Sequential statement-by-statement translation. -/
def LZSS_ReplaceNode (m : Machine) (oldNode newNode : Nat) : Machine :=
  let t0 := m.tree
  let p := (t0 oldNode).parent
  let t1 := if (t0 p).smallChild = oldNode then updSmall t0 p newNode
            else updLarge t0 p newNode
  let t2 := updTree t1 newNode (t1 oldNode)
  let t3 := updParent t2 ((t2 newNode).smallChild) newNode
  let t4 := updParent t3 ((t3 newNode).largeChild) newNode
  let t5 := updTree t4 oldNode TreeNode.clear
  { m with tree := t5 }

/-- The `while` chain of `LZSS_FindNextNode`, with fuel. -/
def findNextLoop (t : Nat → TreeNode) : Nat → Nat → Nat
  | 0, next => next
  | fuel + 1, next =>
      if (t next).largeChild ≠ UNUSED then findNextLoop t fuel ((t next).largeChild)
      else next

/-- Fuel for the two non-syntactically-bounded loops: strictly more than the
number of tree records, hence than any well-formed descent or chain. -/
def LOOP_FUEL : Nat := 2 * LZSS_WINDOW_SIZE + 4

/-- `LZSS_FindNextNode`: the largest node under `node`'s small child. -/
def LZSS_FindNextNode (t : Nat → TreeNode) (node : Nat) : Nat :=
  findNextLoop t LOOP_FUEL ((t node).smallChild)

/-- `LZSS_DeleteNode`: delete a node from the binary tree (`elseif` read as
`else if` per the spec's reading of the source). -/
def LZSS_DeleteNode (m : Machine) (node : Nat) : Machine :=
  if (m.tree node).largeChild = UNUSED then
    LZSS_ContractNode m node ((m.tree node).smallChild)
  else if (m.tree node).smallChild = UNUSED then
    LZSS_ContractNode m node ((m.tree node).largeChild)
  else
    let replNode := LZSS_FindNextNode m.tree node
    let m1 := LZSS_ContractNode m replNode ((m.tree replNode).smallChild)
    LZSS_ReplaceNode m1 node replNode

/-- The inner `while ((i < LZSS_LOOK_AHEAD_SIZE) && (delta == 0))` comparison
loop of `LZSS_AddNode`, with fuel (18 iterations suffice since `i` grows by one
each pass and the guard stops at 17). -/
def scanLoop (w : Nat → Nat) (newNode testNode : Nat) : Nat → Nat → Int → Nat × Int
  | 0, i, delta => (i, delta)
  | fuel + 1, i, delta =>
      if i < LZSS_LOOK_AHEAD_SIZE ∧ delta = 0 then
        scanLoop w newNode testNode fuel (i + 1)
          ((w (LZSS_MOD_WINDOW (newNode + i)) : Int) - (w (LZSS_MOD_WINDOW (testNode + i)) : Int))
      else (i, delta)

/-- The comparison phase of one `LZSS_AddNode` iteration: run the inner loop
from `i = 0, delta = 0`, then `if (delta != 0) i--`.  Returns the adjusted `i`
(the current match length) and the final `delta`. -/
def scanCmp (w : Nat → Nat) (newNode testNode : Nat) : Nat × Int :=
  let r := scanLoop w newNode testNode (LZSS_LOOK_AHEAD_SIZE + 1) 0 0
  (if r.2 ≠ 0 then r.1 - 1 else r.1, r.2)

/-- One node visited during the descent of `LZSS_AddNode`: the `testNode`, the
adjusted match length `i` computed against it, and the final `delta`. -/
structure Visit where
  node : Nat
  len : Nat
  delta : Int
deriving DecidableEq, Repr

/-- Result of `LZSS_AddNode`: the returned match length, the value left in
`*matchPos`, the mutated arrays, and (instrumentation only) the list of
visited test nodes in descent order. -/
structure AddResult where
  matchLen : Nat
  matchPos : Nat
  m : Machine
  visits : List Visit

/-- The leaf attachment of `LZSS_AddNode` (`*child = newNode; tree[newNode].parent
= testNode; tree[newNode].largeChild = UNUSED; tree[newNode].smallChild = UNUSED;`),
where `large = true` selects `largeChild` as the child slot. -/
def attachNode (m : Machine) (testNode : Nat) (large : Bool) (newNode : Nat) : Machine :=
  let t1 := if large then updLarge m.tree testNode newNode else updSmall m.tree testNode newNode
  let t2 := updParent t1 newNode testNode
  let t3 := updLarge t2 newNode UNUSED
  let t4 := updSmall t3 newNode UNUSED
  { m with tree := t4 }

/-- The `while (!matchDone)` descent of `LZSS_AddNode`, with fuel.  On fuel
exhaustion it returns the values accumulated so far (a modelling artifact: the
fuel exceeds any well-formed descent).  Each iteration follows the C body: the
comparison phase, the non-strict `i >= matchLen` best-match update with the
duplicate-removal exit, then the attach-or-descend step on the child selected
by the sign of `delta`. -/
def addLoop (newNode : Nat) :
    Nat → Machine → Nat → Nat → Nat → List Visit → AddResult
  | 0, m, matchLen, matchPos, _, vs => ⟨matchLen, matchPos, m, vs.reverse⟩
  | fuel + 1, m, matchLen, matchPos, testNode, vs =>
      let sc := scanCmp m.window newNode testNode
      let i := sc.1
      let delta := sc.2
      let vs' := (⟨testNode, i, delta⟩ : Visit) :: vs
      let matchLen' := if i ≥ matchLen then i else matchLen
      let matchPos' := if i ≥ matchLen then testNode else matchPos
      if i ≥ matchLen ∧ i ≥ LZSS_LOOK_AHEAD_SIZE then
        ⟨matchLen', matchPos', LZSS_ReplaceNode m testNode newNode, vs'.reverse⟩
      else
        let large := delta ≥ 0
        let c := if large then (m.tree testNode).largeChild
                 else (m.tree testNode).smallChild
        if c = UNUSED then
          ⟨matchLen', matchPos', attachNode m testNode large newNode, vs'.reverse⟩
        else
          addLoop newNode fuel m matchLen' matchPos' c vs'

/-- `LZSS_AddNode`: add `newNode` to the tree, returning the best match found
during the descent.  `matchPos0` is the value `*matchPos` holds at entry (left
untouched on the `END_OF_STREAM` early return). -/
def LZSS_AddNode (m : Machine) (newNode matchPos0 : Nat) : AddResult :=
  if newNode = LZSS_END_OF_STREAM then ⟨0, matchPos0, m, []⟩
  else addLoop newNode LOOP_FUEL m 0 matchPos0 ((m.tree LZSS_TREE_ROOT).largeChild) []

/-! ## The encoder driver `LZSS_CompressData`

The byte-input buffer is a `List Nat` (reading past its end is the
`LZSS_END_OF_INPUT_STREAM` condition).  The bit-output buffer is modelled
structurally: the driver accumulates the emitted records, and `encRec`
reproduces the exact `OutputBit` / `OutputBits` calls of each branch
(`OutputBits` writes the `n` low bits of the value most-significant first).
The driver state also carries instrumentation that does not influence any
computation the C code performs: the per-call pre-state of every
`LZSS_DeleteNode` call, the set of window slots written so far, and the
window slots that were read before being written (split into reads issued
by the comparison loop of `LZSS_AddNode` and reads issued by the literal
emission). -/

/-- One emitted record: an uncompressed literal (`1` flag) or a
position/length pair (`0` flag). -/
inductive Rec where
  | lit (b : Nat)
  | back (pos len : Nat)
deriving DecidableEq, Repr

/-- `OutputBits(buffer, v, n)`: the `n` low bits of `v`, most significant
first. -/
def outputBits (v n : Nat) : List Bool :=
  (List.range n).map (fun j => v.testBit (n - 1 - j))

/-- The bits each record's branch of `LZSS_CompressData` emits. -/
def encRec : Rec → List Bool
  | .lit b => true :: outputBits b 8
  | .back pos len =>
      false :: (outputBits pos LZSS_INDEX_BIT_COUNT
        ++ outputBits (len - (LZSS_BREAK_EVEN + 1)) LZSS_LENGTH_BIT_COUNT)

/-- The end-of-stream marker emitted after the main loop: bit `0`, then
`LZSS_INDEX_BIT_COUNT` bits of `LZSS_END_OF_STREAM`. -/
def terminator : List Bool :=
  false :: outputBits LZSS_END_OF_STREAM LZSS_INDEX_BIT_COUNT

/-- The local state of `LZSS_CompressData` plus the remaining input, the
emitted records (newest first), and instrumentation fields. -/
structure Drv where
  m : Machine
  input : List Nat
  winPos : Nat
  ahead : Nat
  matchLen : Nat
  matchPos : Nat
  recs : List Rec
  dels : List (Nat × Nat × TreeNode)
  written : Nat → Bool
  badScan : List Nat
  badLit : List Nat

/-- The window slots the comparison loop of one `LZSS_AddNode` visit read:
iteration `j` of the inner loop reads `LZSS_MOD_WINDOW (newNode + j)` and
`LZSS_MOD_WINDOW (node + j)`; the loop ran `len + 1` iterations when it
stopped on a mismatch (`delta ≠ 0`) and `len` iterations otherwise. -/
def visitReads (newNode : Nat) (v : Visit) : List Nat :=
  (List.range (if v.delta ≠ 0 then v.len + 1 else v.len)).flatMap
    (fun j => [LZSS_MOD_WINDOW (newNode + j), LZSS_MOD_WINDOW (v.node + j)])

/-- The driver state at entry: zeroed arrays, `winPos = 1`, everything else
zero / empty. -/
def Drv.start (input : List Nat) : Drv :=
  ⟨Machine.init, input, 1, 0, 0, 0, [], [], fun _ => false, [], []⟩

/-- The look-ahead priming loop (`while ((aheadBytes < LZSS_LOOK_AHEAD_SIZE)
&& (!eosReached))`), with fuel `LZSS_LOOK_AHEAD_SIZE` (each non-EOF pass
increments `aheadBytes`; EOF ends the loop since the input list stays empty). -/
def primeLoop : Nat → Drv → Drv
  | 0, d => d
  | fuel + 1, d =>
      if d.ahead < LZSS_LOOK_AHEAD_SIZE then
        match d.input with
        | [] => d
        | b :: rest =>
            primeLoop fuel
              { d with
                  m := { d.m with window := updWindow d.m.window (d.winPos + d.ahead) b }
                  written := fun j => if j = d.winPos + d.ahead then true else d.written j
                  input := rest
                  ahead := d.ahead + 1 }
      else d

/-- One pass of the `for (i = 0; i < replCnt; i++)` advance loop: delete the
node at `(winPos + LZSS_LOOK_AHEAD_SIZE) mod LZSS_WINDOW_SIZE`, read one input
byte (EOF decrements `aheadBytes`, otherwise the byte lands in the vacated
slot), step `winPos`, and if look-ahead bytes remain run `LZSS_AddNode` at the
new position. -/
def advance (d : Drv) : Drv :=
  let target := LZSS_MOD_WINDOW (d.winPos + LZSS_LOOK_AHEAD_SIZE)
  let d0 := { d with
                m := LZSS_DeleteNode d.m target
                dels := (d.winPos, target, d.m.tree target) :: d.dels }
  let d1 :=
    match d0.input with
    | [] => { d0 with ahead := d0.ahead - 1 }
    | b :: rest =>
        { d0 with
            m := { d0.m with window := updWindow d0.m.window target b }
            written := fun j => if j = target then true else d0.written j
            input := rest }
  let d2 := { d1 with winPos := LZSS_MOD_WINDOW (d1.winPos + 1) }
  if d2.ahead ≠ 0 then
    let r := LZSS_AddNode d2.m d2.winPos d2.matchPos
    { d2 with
        m := r.m
        matchLen := r.matchLen
        matchPos := r.matchPos
        badScan := d2.badScan ++
          ((r.visits.flatMap (visitReads d2.winPos)).filter (fun j => !d2.written j)) }
  else d2

/-- `replCnt` passes of the advance loop. -/
def advanceN : Nat → Drv → Drv
  | 0, d => d
  | n + 1, d => advanceN n (advance d)

/-- One iteration of the driver's main loop: clamp `matchLen` to `aheadBytes`,
emit a literal or a position/length pair, then advance `replCnt` positions. -/
def mainStep (d : Drv) : Drv :=
  let matchLen1 := if d.matchLen > d.ahead then d.ahead else d.matchLen
  if matchLen1 ≤ LZSS_BREAK_EVEN then
    let d1 := { d with
                  matchLen := matchLen1
                  recs := .lit (d.m.window d.winPos) :: d.recs
                  badLit := d.badLit ++ (if d.written d.winPos then [] else [d.winPos]) }
    advanceN 1 d1
  else
    let d1 := { d with
                  matchLen := matchLen1
                  recs := .back d.matchPos matchLen1 :: d.recs }
    advanceN matchLen1 d1

/-- The driver's loop measure: the input not yet read plus the look-ahead
content; every advance pass decreases it by one while it is positive. -/
def Drv.measure (d : Drv) : Nat := d.input.length + d.ahead

/-- The `while (aheadBytes > 0)` main loop of `LZSS_CompressData`, expressed
as iteration of `mainStep` with fuel.  Every pass of the advance loop
decreases `Drv.measure` by one (`measure_advance`), so any fuel above the
entry measure makes the fueled loop agree with the C `while` loop
(`mainLoop_complete` below). -/
def mainLoop : Nat → Drv → Drv
  | 0, d => d
  | fuel + 1, d => if d.ahead = 0 then d else mainLoop fuel (mainStep d)

/-- `LZSS_CompressData`: prime the look-ahead buffer, initialize the tree at
`winPos`, run the main loop.  (The two `OutputBit`/`OutputBits` calls after
the loop are the `terminator` appended by `compressedBits`.)  Returns the
final driver state.  The fuel `input.length + 2` exceeds the loop measure:
priming only moves bytes from the input into the look-ahead count, so the
measure at loop entry is exactly `input.length`. -/
def LZSS_CompressData (input : List Nat) : Drv :=
  let d0 := primeLoop LZSS_LOOK_AHEAD_SIZE (Drv.start input)
  mainLoop (input.length + 2) { d0 with m := LZSS_InitTree d0.m d0.winPos }

/-- The records `LZSS_CompressData` emits, oldest first. -/
def records (input : List Nat) : List Rec :=
  (LZSS_CompressData input).recs.reverse

/-- The full bit stream `LZSS_CompressData` writes to the output buffer: the
bits of each record in emission order, then the end-of-stream marker. -/
def compressedBits (input : List Nat) : List Bool :=
  (records input).flatMap encRec ++ terminator

/-- Total bit length of the records a driver state has emitted. -/
def bitsLen (d : Drv) : Nat := (d.recs.map (fun r => (encRec r).length)).sum

/-- The record well-formedness the driver maintains: every emitted
position/length record has a real length in
`[LZSS_BREAK_EVEN + 1, LZSS_LOOK_AHEAD_SIZE]`. -/
def RecOK : Rec → Prop
  | .lit _ => True
  | .back _ len => LZSS_BREAK_EVEN + 1 ≤ len ∧ len ≤ LZSS_LOOK_AHEAD_SIZE

/-- Driver invariant for the literal-read claim: the window cursor is reduced,
the look-ahead is bounded, the look-ahead is full while input remains, every
look-ahead slot has been written, and no literal emission has read an
unwritten slot. -/
def LitInv (d : Drv) : Prop :=
  d.winPos < LZSS_WINDOW_SIZE ∧
    d.ahead ≤ LZSS_LOOK_AHEAD_SIZE ∧
    (d.input ≠ [] → d.ahead = LZSS_LOOK_AHEAD_SIZE) ∧
    (∀ j, j < d.ahead → d.written (LZSS_MOD_WINDOW (d.winPos + j)) = true) ∧
    d.badLit = []

/-- After priming from the start state: bounded look-ahead and every primed
slot written (raw indices, which the priming loop uses without reduction). -/
def PrimeInv (d : Drv) : Prop :=
  d.winPos = 1 ∧ d.ahead ≤ LZSS_LOOK_AHEAD_SIZE ∧
    ∀ j, j < d.ahead → d.written (d.winPos + j) = true

/-- One best-match update of `LZSS_AddNode`: the C code runs
`if (i >= matchLen) { matchLen = i; *matchPos = testNode; }` — non-strict, so
a later node with an equal match length overwrites the position. -/
def bestUpd (acc : Nat × Nat) (v : Visit) : Nat × Nat :=
  if v.len ≥ acc.1 then (v.len, v.node) else acc

theorem measure_advance (d : Drv) : (advance d).measure = d.measure - 1 := by
  unfold advance Drv.measure
  cases h : d.input with
  | nil => dsimp only [h]; split <;> simp
  | cons b rest => dsimp only [h]; split <;> simp

theorem measure_advanceN (n : Nat) (d : Drv) :
    (advanceN n d).measure = d.measure - n := by
  induction n generalizing d with
  | zero => rfl
  | succ k ih =>
      show (advanceN k (advance d)).measure = d.measure - (k + 1)
      rw [ih, measure_advance]
      omega

theorem measure_mainStep_lt (d : Drv) (h : d.ahead ≠ 0) :
    (mainStep d).measure < d.measure := by
  have hbe : LZSS_BREAK_EVEN = 1 := rfl
  unfold mainStep
  dsimp only
  split <;> split <;> rw [measure_advanceN] <;> simp only [Drv.measure] <;> omega

/-- With fuel above the measure the loop runs to completion, i.e. reaches the
`aheadBytes = 0` exit of the C loop. -/
theorem mainLoop_complete (fuel : Nat) (d : Drv) (h : d.measure < fuel) :
    (mainLoop fuel d).ahead = 0 := by
  induction fuel generalizing d with
  | zero => omega
  | succ f ih =>
      show (if d.ahead = 0 then d else mainLoop f (mainStep d)).ahead = 0
      split
      · assumption
      · exact ih _ (by
          have := measure_mainStep_lt d (by assumption)
          omega)

/-! ## Basic facts about the emitted bits -/

theorem outputBits_length (v n : Nat) : (outputBits v n).length = n := by
  simp [outputBits]

theorem encRec_lit_length (b : Nat) : (encRec (.lit b)).length = 9 := by
  simp [encRec, outputBits_length]

theorem encRec_back_length (p l : Nat) :
    (encRec (.back p l)).length = 1 + LZSS_INDEX_BIT_COUNT + LZSS_LENGTH_BIT_COUNT := by
  simp [encRec, outputBits_length]; rfl

theorem terminator_length : terminator.length = 1 + LZSS_INDEX_BIT_COUNT := by
  simp [terminator, outputBits_length]; omega

/-! ## Pointwise reading of the update helpers -/

theorem updTree_eq (t : Nat → TreeNode) (i : Nat) (v : TreeNode) : updTree t i v i = v := by
  simp [updTree]

theorem updTree_ne (t : Nat → TreeNode) (i : Nat) (v : TreeNode) (j : Nat) (h : j ≠ i) :
    updTree t i v j = t j := by
  simp [updTree, h]

theorem updParent_ne (t : Nat → TreeNode) (i p j : Nat) (h : j ≠ i) :
    updParent t i p j = t j := updTree_ne _ _ _ _ h

theorem updSmall_ne (t : Nat → TreeNode) (i c j : Nat) (h : j ≠ i) :
    updSmall t i c j = t j := updTree_ne _ _ _ _ h

theorem updLarge_ne (t : Nat → TreeNode) (i c j : Nat) (h : j ≠ i) :
    updLarge t i c j = t j := updTree_ne _ _ _ _ h

theorem updWindow_ne (w : Nat → Nat) (i v j : Nat) (h : j ≠ i) :
    updWindow w i v j = w j := by
  simp [updWindow, h]

/-! ## Frame behaviour of `LZSS_DeleteNode` on a detached record

`LZSS_CompressData` calls `LZSS_DeleteNode` on window slots that were never
inserted (every slot during the first `LZSS_WINDOW_SIZE - LZSS_LOOK_AHEAD_SIZE`
advances) or that left the tree early (duplicate removal).  Such a slot's
record is all-`UNUSED`; the call then takes the `largeChild == UNUSED` branch
and contracts the node with `UNUSED`, so every write lands on index `node`
(rewriting the already clear record) or on the sentinel index `0`. -/

theorem deleteNode_clear_frame_aux (m : Machine) (p : Nat) (hp : p ≠ 0)
    (hclear : m.tree p = TreeNode.clear) :
    (∀ q, q ≠ 0 → (LZSS_DeleteNode m p).tree q = m.tree q) ∧
      (LZSS_DeleteNode m p).window = m.window := by
  have hL : (m.tree p).largeChild = UNUSED := by rw [hclear]; rfl
  have hS : (m.tree p).smallChild = UNUSED := by rw [hclear]; rfl
  have hP : (m.tree p).parent = UNUSED := by rw [hclear]; rfl
  unfold LZSS_DeleteNode
  rw [if_pos hL, hS]
  unfold LZSS_ContractNode
  dsimp only
  refine ⟨?_, rfl⟩
  intro q hq
  have hq0 : q ≠ UNUSED := hq
  have hpu : p ≠ UNUSED := hp
  have h1 : (updParent m.tree UNUSED ((m.tree p).parent)) p = m.tree p :=
    updParent_ne _ _ _ _ hpu
  by_cases hqp : q = p
  · subst hqp
    rw [updTree_eq, hclear]
  · rw [updTree_ne _ _ _ _ hqp, h1, hP]
    split
    · rw [updLarge_ne _ _ _ _ hq0]
      exact updParent_ne _ _ _ _ hq0
    · rw [updSmall_ne _ _ _ _ hq0]
      exact updParent_ne _ _ _ _ hq0

/-! ## Generic loop-invariant scaffolding -/

theorem mainLoop_inv (P : Drv → Prop)
    (hstep : ∀ d, d.ahead ≠ 0 → P d → P (mainStep d)) :
    ∀ fuel d, P d → P (mainLoop fuel d) := by
  intro fuel
  induction fuel with
  | zero => intro d h; exact h
  | succ f ih =>
      intro d h
      show P (if d.ahead = 0 then d else mainLoop f (mainStep d))
      split
      · exact h
      · exact ih _ (hstep d (by assumption) h)

theorem primeLoop_inv (P : Drv → Prop)
    (hstep : ∀ d b rest, d.input = b :: rest → d.ahead < LZSS_LOOK_AHEAD_SIZE → P d →
      P { d with
            m := { d.m with window := updWindow d.m.window (d.winPos + d.ahead) b }
            written := fun j => if j = d.winPos + d.ahead then true else d.written j
            input := rest
            ahead := d.ahead + 1 }) :
    ∀ fuel d, P d → P (primeLoop fuel d) := by
  intro fuel
  induction fuel with
  | zero => intro d h; exact h
  | succ f ih =>
      intro d h
      show P (if d.ahead < LZSS_LOOK_AHEAD_SIZE then _ else d)
      split
      · rename_i hlt
        cases hin : d.input with
        | nil => simpa [primeLoop, hin] using h
        | cons b rest =>
            simp only [hin]
            exact ih _ (hstep d b rest hin hlt h)
      · exact h

/-! ## Field projections of the driver steps -/

theorem advance_dels (d : Drv) :
    (advance d).dels = (d.winPos, LZSS_MOD_WINDOW (d.winPos + LZSS_LOOK_AHEAD_SIZE),
      d.m.tree (LZSS_MOD_WINDOW (d.winPos + LZSS_LOOK_AHEAD_SIZE))) :: d.dels := by
  unfold advance
  cases h : d.input <;> dsimp only [h] <;> split <;> rfl

theorem advance_recs (d : Drv) : (advance d).recs = d.recs := by
  unfold advance
  cases h : d.input <;> dsimp only [h] <;> split <;> rfl

theorem advance_badLit (d : Drv) : (advance d).badLit = d.badLit := by
  unfold advance
  cases h : d.input <;> dsimp only [h] <;> split <;> rfl

theorem advanceN_recs (n : Nat) (d : Drv) : (advanceN n d).recs = d.recs := by
  induction n generalizing d with
  | zero => rfl
  | succ k ih => show (advanceN k (advance d)).recs = d.recs; rw [ih, advance_recs]

theorem advanceN_badLit (n : Nat) (d : Drv) : (advanceN n d).badLit = d.badLit := by
  induction n generalizing d with
  | zero => rfl
  | succ k ih => show (advanceN k (advance d)).badLit = d.badLit; rw [ih, advance_badLit]

theorem primeLoop_dels (fuel : Nat) (d : Drv) : (primeLoop fuel d).dels = d.dels := by
  induction fuel generalizing d with
  | zero => rfl
  | succ f ih =>
      show (if d.ahead < LZSS_LOOK_AHEAD_SIZE then _ else d).dels = d.dels
      split
      · cases h : d.input with
        | nil => simp [primeLoop, h]
        | cons b rest => simp only [h]; rw [ih]
      · rfl

theorem primeLoop_recs (fuel : Nat) (d : Drv) : (primeLoop fuel d).recs = d.recs := by
  induction fuel generalizing d with
  | zero => rfl
  | succ f ih =>
      show (if d.ahead < LZSS_LOOK_AHEAD_SIZE then _ else d).recs = d.recs
      split
      · cases h : d.input with
        | nil => simp [primeLoop, h]
        | cons b rest => simp only [h]; rw [ih]
      · rfl

/-! ## Delete call-site bookkeeping (claim C6) -/

theorem delsOK_advance (d : Drv)
    (h : ∀ e ∈ d.dels, e.2.1 = LZSS_MOD_WINDOW (e.1 + LZSS_LOOK_AHEAD_SIZE)) :
    ∀ e ∈ (advance d).dels, e.2.1 = LZSS_MOD_WINDOW (e.1 + LZSS_LOOK_AHEAD_SIZE) := by
  rw [advance_dels]
  intro e he
  rcases List.mem_cons.mp he with h1 | h2
  · subst h1; rfl
  · exact h e h2

theorem delsOK_advanceN (n : Nat) (d : Drv)
    (h : ∀ e ∈ d.dels, e.2.1 = LZSS_MOD_WINDOW (e.1 + LZSS_LOOK_AHEAD_SIZE)) :
    ∀ e ∈ (advanceN n d).dels, e.2.1 = LZSS_MOD_WINDOW (e.1 + LZSS_LOOK_AHEAD_SIZE) := by
  induction n generalizing d with
  | zero => exact h
  | succ k ih => exact ih (advance d) (delsOK_advance d h)

theorem delsOK_mainStep (d : Drv)
    (h : ∀ e ∈ d.dels, e.2.1 = LZSS_MOD_WINDOW (e.1 + LZSS_LOOK_AHEAD_SIZE)) :
    ∀ e ∈ (mainStep d).dels, e.2.1 = LZSS_MOD_WINDOW (e.1 + LZSS_LOOK_AHEAD_SIZE) := by
  unfold mainStep
  dsimp only
  split <;> split
  all_goals first
    | exact delsOK_advanceN 1 _ h
    | exact delsOK_advanceN _ _ h

theorem compress_delsOK (input : List Nat) :
    ∀ e ∈ (LZSS_CompressData input).dels,
      e.2.1 = LZSS_MOD_WINDOW (e.1 + LZSS_LOOK_AHEAD_SIZE) := by
  unfold LZSS_CompressData
  dsimp only
  apply mainLoop_inv
    (fun d => ∀ e ∈ d.dels, e.2.1 = LZSS_MOD_WINDOW (e.1 + LZSS_LOOK_AHEAD_SIZE))
    (fun d _ h => delsOK_mainStep d h)
  intro e he
  have hnil : (primeLoop LZSS_LOOK_AHEAD_SIZE (Drv.start input)).dels = [] := by
    rw [primeLoop_dels]; rfl
  simp only [hnil] at he
  exact absurd he (List.not_mem_nil e)

/-! ## Claim theorems C3, C6, C10 -/

/-- **C3** (counterexample).  The claim states that the terminator-only output
for empty input is 15 bits long.  On empty input the embedded
`LZSS_CompressData` emits exactly the end-of-stream marker, bit `0` followed
by `LZSS_INDEX_BIT_COUNT = 10` zero bits, which is 11 bits, not 15. -/
theorem empty_output_is_terminator_of_eleven_bits :
    compressedBits [] = terminator ∧ (compressedBits []).length = 11 ∧
      ¬ (compressedBits []).length = 15 :=
  ⟨by decide, by decide, by decide⟩

/-- **C3** (amended).  For empty input the entire output is exactly the
terminator record, bit `0` followed by `LZSS_INDEX_BIT_COUNT` zero bits; this
terminator-only output is `1 + LZSS_INDEX_BIT_COUNT = 11` bits long; and for
every input the emission sequence ends with that same terminator record. -/
theorem empty_input_emits_terminator_only :
    compressedBits [] = false :: List.replicate LZSS_INDEX_BIT_COUNT false ∧
      (compressedBits []).length = 1 + LZSS_INDEX_BIT_COUNT ∧
      ∀ input : List Nat, ∃ body, compressedBits input = body ++ terminator :=
  ⟨by decide, by decide, fun input => ⟨(records input).flatMap encRec, rfl⟩⟩

/-- **C10**.  For every position `p ≠ 0` whose record is all-`UNUSED` (so `p`
is not in the tree), `LZSS_DeleteNode p` changes no tree record other than the
sentinel record at index `0` — the record at `p` itself is rewritten with the
all-`UNUSED` value it already had — and leaves the window untouched.  Since a
link equal to `UNUSED = 0` means "no child", no node reachable from
`LZSS_TREE_ROOT` changes, so the tree shape seen by `LZSS_AddNode` is
unchanged. -/
theorem deleteNode_detached_changes_only_sentinel (m : Machine) (p : Nat)
    (hp : p ≠ 0) (hclear : m.tree p = TreeNode.clear) :
    (∀ q, q ≠ 0 → (LZSS_DeleteNode m p).tree q = m.tree q) ∧
      (LZSS_DeleteNode m p).window = m.window :=
  deleteNode_clear_frame_aux m p hp hclear

/-- Witness for `deleteNode_detached_changes_only_sentinel` at the
zero-initialized arrays with `p = 5`, sampled at record `7`. -/
theorem deleteNode_detached_changes_only_sentinel_witness :
    (5 : Nat) ≠ 0 ∧ Machine.init.tree 5 = TreeNode.clear ∧
      (LZSS_DeleteNode Machine.init 5).tree 7 = Machine.init.tree 7 ∧
      (LZSS_DeleteNode Machine.init 5).window = Machine.init.window := by
  refine ⟨by decide, rfl, ?_, ?_⟩
  · exact (deleteNode_detached_changes_only_sentinel Machine.init 5 (by decide) rfl).1 7
      (by decide)
  · exact (deleteNode_detached_changes_only_sentinel Machine.init 5 (by decide) rfl).2

/-- **C6** (counterexample).  The claim states that at every call site of
`LZSS_DeleteNode` inside `LZSS_CompressData` the deleted position is currently
in the tree.  On input `[0x41]` the single advance pass calls
`LZSS_DeleteNode` on slot `18 = (1 + LZSS_LOOK_AHEAD_SIZE)`, whose record is
still all-`UNUSED` — in particular its `parent` is `UNUSED`, which by the
spec's own criterion means the position is *not* in the tree (it was never
inserted: only position 1 had been inserted by `LZSS_InitTree`). -/
theorem first_delete_call_target_not_in_tree :
    (LZSS_CompressData [65]).dels = [(1, 18, TreeNode.clear)] ∧
      TreeNode.clear.parent = UNUSED :=
  ⟨by decide, rfl⟩

/-- **C6** (amended).  Every call of `LZSS_DeleteNode` inside
`LZSS_CompressData` receives the slot `(winPos + LZSS_LOOK_AHEAD_SIZE) mod
LZSS_WINDOW_SIZE` of its advance pass, but that slot is not always in the
tree: during the first `LZSS_WINDOW_SIZE - LZSS_LOOK_AHEAD_SIZE` advances it
was never inserted (and a slot removed early by duplicate replacement is also
absent).  A call whose target record is all-`UNUSED` changes no record other
than the sentinel `T[0]`, so the tree is unaffected. -/
theorem delete_call_sites_amended :
    (∀ input : List Nat, ∀ e ∈ (LZSS_CompressData input).dels,
        e.2.1 = LZSS_MOD_WINDOW (e.1 + LZSS_LOOK_AHEAD_SIZE)) ∧
      ∀ (m : Machine) (p : Nat), p ≠ 0 → m.tree p = TreeNode.clear →
        ∀ q, q ≠ 0 → (LZSS_DeleteNode m p).tree q = m.tree q :=
  ⟨compress_delsOK, fun m p hp hc => (deleteNode_clear_frame_aux m p hp hc).1⟩

/-- Witness for `delete_call_sites_amended`: the single delete event of input
`[0x41]` and a detached delete on the zero-initialized arrays. -/
theorem delete_call_sites_amended_witness :
    (1, 18, TreeNode.clear) ∈ (LZSS_CompressData [65]).dels ∧
      (18 : Nat) = LZSS_MOD_WINDOW (1 + LZSS_LOOK_AHEAD_SIZE) ∧
      (LZSS_DeleteNode Machine.init 5).tree 7 = Machine.init.tree 7 := by
  refine ⟨by decide, ?_, ?_⟩
  · exact delete_call_sites_amended.1 [65] (1, 18, TreeNode.clear) (by decide)
  · exact delete_call_sites_amended.2 Machine.init 5 (by decide) rfl 7 (by decide)

/-! ## Bit budget (claim C2) -/

theorem length_flatMap_encRec (l : List Rec) :
    (l.flatMap encRec).length = (l.map (fun r => (encRec r).length)).sum := by
  induction l with
  | nil => rfl
  | cons r tl ih => simp [ih]

theorem primeLoop_measure (fuel : Nat) (d : Drv) :
    (primeLoop fuel d).measure = d.measure := by
  induction fuel generalizing d with
  | zero => rfl
  | succ f ih =>
      show (if d.ahead < LZSS_LOOK_AHEAD_SIZE then _ else d).measure = d.measure
      split
      · cases h : d.input with
        | nil => simp [primeLoop, h]
        | cons b rest =>
            simp only [h]
            rw [ih]
            simp [Drv.measure, h]
            omega
      · rfl

theorem bitsLen_advanceN (n : Nat) (d : Drv) : bitsLen (advanceN n d) = bitsLen d := by
  unfold bitsLen
  rw [advanceN_recs]

theorem bitsLen_mainStep (d : Drv) (h : d.ahead ≠ 0) :
    bitsLen (mainStep d) + 9 * (mainStep d).measure ≤ bitsLen d + 9 * d.measure := by
  have hbe : LZSS_BREAK_EVEN = 1 := rfl
  have h15 : 1 + LZSS_INDEX_BIT_COUNT + LZSS_LENGTH_BIT_COUNT = 15 := rfl
  unfold mainStep
  dsimp only
  split <;> split <;>
    rw [bitsLen_advanceN, measure_advanceN] <;>
    simp only [bitsLen, List.map_cons, List.sum_cons, encRec_lit_length,
      encRec_back_length, Drv.measure] <;>
    omega

theorem compress_bitsLen_le (input : List Nat) :
    bitsLen (LZSS_CompressData input) ≤ 9 * input.length := by
  have key : bitsLen (LZSS_CompressData input) +
      9 * (LZSS_CompressData input).measure ≤ 9 * input.length := by
    unfold LZSS_CompressData
    dsimp only
    apply mainLoop_inv (fun d => bitsLen d + 9 * d.measure ≤ 9 * input.length)
      (fun d hne hp => le_trans (bitsLen_mainStep d hne) hp)
    have h1 : bitsLen { primeLoop LZSS_LOOK_AHEAD_SIZE (Drv.start input) with
        m := LZSS_InitTree (primeLoop LZSS_LOOK_AHEAD_SIZE (Drv.start input)).m
          (primeLoop LZSS_LOOK_AHEAD_SIZE (Drv.start input)).winPos } = 0 := by
      show bitsLen (primeLoop LZSS_LOOK_AHEAD_SIZE (Drv.start input)) = 0
      unfold bitsLen
      rw [primeLoop_recs]
      rfl
    have h2 : ({ primeLoop LZSS_LOOK_AHEAD_SIZE (Drv.start input) with
        m := LZSS_InitTree (primeLoop LZSS_LOOK_AHEAD_SIZE (Drv.start input)).m
          (primeLoop LZSS_LOOK_AHEAD_SIZE (Drv.start input)).winPos }).measure
        = input.length := by
      show (primeLoop LZSS_LOOK_AHEAD_SIZE (Drv.start input)).measure = input.length
      rw [primeLoop_measure]
      simp [Drv.measure, Drv.start]
    rw [h1, h2]
    omega
  omega

/-- **C2**.  For every input of `n` bytes the total number of bits
`LZSS_CompressData` emits is at most `9 n + 1 + LZSS_INDEX_BIT_COUNT`: a
literal record is 9 bits and consumes one byte, a position/length record is
`1 + LZSS_INDEX_BIT_COUNT + LZSS_LENGTH_BIT_COUNT = 15` bits and consumes
`matchLen ≥ LZSS_BREAK_EVEN + 1 = 2` bytes, and the run ends with the single
`1 + LZSS_INDEX_BIT_COUNT = 11`-bit terminator record. -/
theorem output_length_bound (input : List Nat) :
    (compressedBits input).length ≤ 9 * input.length + 1 + LZSS_INDEX_BIT_COUNT := by
  have hterm : terminator.length = 1 + LZSS_INDEX_BIT_COUNT := terminator_length
  have hb : ((records input).flatMap encRec).length ≤ 9 * input.length := by
    rw [length_flatMap_encRec]
    have : ((records input).map (fun r => (encRec r).length)).sum
        = bitsLen (LZSS_CompressData input) := by
      unfold records bitsLen
      rw [List.map_reverse, List.sum_reverse]
    rw [this]
    exact compress_bitsLen_le input
  unfold compressedBits
  rw [List.length_append, hterm]
  omega

/-! ## Match length bounds (claim C4) -/

theorem scanLoop_le (w : Nat → Nat) (nn tn : Nat) :
    ∀ (fuel i : Nat) (δ : Int), i ≤ LZSS_LOOK_AHEAD_SIZE →
      (scanLoop w nn tn fuel i δ).1 ≤ LZSS_LOOK_AHEAD_SIZE := by
  intro fuel
  induction fuel with
  | zero => intro i δ h; exact h
  | succ f ih =>
      intro i δ h
      simp only [scanLoop]
      split
      · rename_i hc
        exact ih (i + 1) _ (by omega)
      · exact h

theorem scanCmp_le (w : Nat → Nat) (nn tn : Nat) :
    (scanCmp w nn tn).1 ≤ LZSS_LOOK_AHEAD_SIZE := by
  unfold scanCmp
  dsimp only
  have hs := scanLoop_le w nn tn (LZSS_LOOK_AHEAD_SIZE + 1) 0 0 (by omega)
  split
  · omega
  · exact hs

theorem addLoop_matchLen_le (nn : Nat) :
    ∀ (fuel : Nat) (m : Machine) (mLen mPos tn : Nat) (vs : List Visit),
      mLen ≤ LZSS_LOOK_AHEAD_SIZE →
      (addLoop nn fuel m mLen mPos tn vs).matchLen ≤ LZSS_LOOK_AHEAD_SIZE := by
  intro fuel
  induction fuel with
  | zero => intro m mLen mPos tn vs h; exact h
  | succ f ih =>
      intro m mLen mPos tn vs h
      simp only [addLoop]
      have hsc := scanCmp_le m.window nn tn
      split
      · dsimp only
        split <;> omega
      · split <;> split
        all_goals
          first
            | (dsimp only; split <;> omega)
            | (apply ih; split <;> omega)

theorem addNode_matchLen_le (m : Machine) (nn mp0 : Nat) :
    (LZSS_AddNode m nn mp0).matchLen ≤ LZSS_LOOK_AHEAD_SIZE := by
  unfold LZSS_AddNode
  split
  · exact Nat.zero_le _
  · exact addLoop_matchLen_le nn LOOP_FUEL m 0 mp0 _ [] (Nat.zero_le _)

theorem advance_matchLen_le (d : Drv) (h : d.matchLen ≤ LZSS_LOOK_AHEAD_SIZE) :
    (advance d).matchLen ≤ LZSS_LOOK_AHEAD_SIZE := by
  unfold advance
  cases hin : d.input <;> dsimp only [hin] <;> split
  · exact addNode_matchLen_le _ _ _
  · exact h
  · exact addNode_matchLen_le _ _ _
  · exact h

theorem advanceN_matchLen_le (n : Nat) (d : Drv) (h : d.matchLen ≤ LZSS_LOOK_AHEAD_SIZE) :
    (advanceN n d).matchLen ≤ LZSS_LOOK_AHEAD_SIZE := by
  induction n generalizing d with
  | zero => exact h
  | succ k ih => exact ih (advance d) (advance_matchLen_le d h)

theorem recsOK_mainStep (d : Drv)
    (h : d.matchLen ≤ LZSS_LOOK_AHEAD_SIZE ∧ ∀ r ∈ d.recs, RecOK r) :
    (mainStep d).matchLen ≤ LZSS_LOOK_AHEAD_SIZE ∧ ∀ r ∈ (mainStep d).recs, RecOK r := by
  have hbe : LZSS_BREAK_EVEN = 1 := rfl
  have hla : LZSS_LOOK_AHEAD_SIZE = 17 := rfl
  unfold mainStep
  dsimp only
  split <;> split <;> refine ⟨advanceN_matchLen_le _ _ ?_, ?_⟩
  all_goals
    first
      | (show d.ahead ≤ LZSS_LOOK_AHEAD_SIZE; omega)
      | (show d.matchLen ≤ LZSS_LOOK_AHEAD_SIZE; omega)
      | (rw [advanceN_recs]
         intro r hr
         rcases List.mem_cons.mp hr with h1 | h2
         · subst h1
           simp only [RecOK]
           all_goals omega
         · exact h.2 r h2)

theorem compress_recsOK (input : List Nat) :
    ∀ r ∈ (LZSS_CompressData input).recs, RecOK r := by
  unfold LZSS_CompressData
  dsimp only
  have := mainLoop_inv
    (fun d => d.matchLen ≤ LZSS_LOOK_AHEAD_SIZE ∧ ∀ r ∈ d.recs, RecOK r)
    (fun d _ h => recsOK_mainStep d h)
    (input.length + 2)
  refine (this _ ⟨?_, ?_⟩).2
  · show (primeLoop LZSS_LOOK_AHEAD_SIZE (Drv.start input)).matchLen ≤ _
    have hml : ∀ fuel d, (primeLoop fuel d : Drv).matchLen = d.matchLen := by
      intro fuel
      induction fuel with
      | zero => intro d; rfl
      | succ f ih =>
          intro d
          show (if d.ahead < LZSS_LOOK_AHEAD_SIZE then _ else d).matchLen = d.matchLen
          split
          · cases hin : d.input with
            | nil => simp [primeLoop, hin]
            | cons b rest => simp only [hin]; rw [ih]
          · rfl
    rw [hml]
    show (0 : Nat) ≤ LZSS_LOOK_AHEAD_SIZE
    omega
  · show ∀ r ∈ (primeLoop LZSS_LOOK_AHEAD_SIZE (Drv.start input)).recs, RecOK r
    rw [primeLoop_recs]
    intro r hr
    exact absurd hr (List.not_mem_nil r)

/-- **C4**.  Every position/length record `LZSS_CompressData` emits consists
of bit `0`, `LZSS_INDEX_BIT_COUNT` bits of the match position and
`LZSS_LENGTH_BIT_COUNT` bits of `len - (LZSS_BREAK_EVEN + 1)`; at emission
the real match length lies in `[LZSS_BREAK_EVEN + 1, LZSS_LOOK_AHEAD_SIZE] =
[2, 17]` (the comparison loop of `LZSS_AddNode` never counts past
`LZSS_LOOK_AHEAD_SIZE` and the driver clamps to `aheadBytes`), so the encoded
length field lies in `[0, LZSS_RAW_LOOK_AHEAD_SIZE - 1] = [0, 15]` and never
overflows its 4 bits. -/
theorem backref_record_bounds (input : List Nat) (pos len : Nat)
    (h : Rec.back pos len ∈ records input) :
    LZSS_BREAK_EVEN + 1 ≤ len ∧ len ≤ LZSS_LOOK_AHEAD_SIZE ∧
      len - (LZSS_BREAK_EVEN + 1) ≤ LZSS_RAW_LOOK_AHEAD_SIZE - 1 ∧
      encRec (Rec.back pos len) =
        false :: (outputBits pos LZSS_INDEX_BIT_COUNT
          ++ outputBits (len - (LZSS_BREAK_EVEN + 1)) LZSS_LENGTH_BIT_COUNT) := by
  have hmem : Rec.back pos len ∈ (LZSS_CompressData input).recs := by
    have := h
    unfold records at this
    exact List.mem_reverse.mp this
  have hr := compress_recsOK input _ hmem
  rcases hr with ⟨h1, h2⟩
  have hbe : LZSS_BREAK_EVEN = 1 := rfl
  have hraw : LZSS_RAW_LOOK_AHEAD_SIZE = 16 := rfl
  have hla : LZSS_LOOK_AHEAD_SIZE = 17 := rfl
  exact ⟨h1, h2, by omega, rfl⟩

/-- Witness for `backref_record_bounds`: 18 copies of byte `0xAA` produce the
record `back 1 17` (a 17-byte match at position 1). -/
theorem backref_record_bounds_witness :
    Rec.back 1 17 ∈ records (List.replicate 18 170) ∧
      LZSS_BREAK_EVEN + 1 ≤ 17 ∧ 17 ≤ LZSS_LOOK_AHEAD_SIZE ∧
      17 - (LZSS_BREAK_EVEN + 1) ≤ LZSS_RAW_LOOK_AHEAD_SIZE - 1 := by
  have hm : Rec.back 1 17 ∈ records (List.replicate 18 170) := by decide
  have := backref_record_bounds (List.replicate 18 170) 1 17 hm
  exact ⟨hm, this.1, this.2.1, this.2.2.1⟩

/-! ## Window reads (claim C9) -/

theorem mod_window_of_lt {a : Nat} (h : a < LZSS_WINDOW_SIZE) : LZSS_MOD_WINDOW a = a :=
  Nat.mod_eq_of_lt h

theorem mod_window_add_left (a b : Nat) :
    LZSS_MOD_WINDOW (LZSS_MOD_WINDOW a + b) = LZSS_MOD_WINDOW (a + b) := by
  simp [LZSS_MOD_WINDOW, Nat.mod_add_mod]

theorem litInv_advance (d : Drv) (h : LitInv d) : LitInv (advance d) := by
  obtain ⟨hw, ha, hia, hwr, hbl⟩ := h
  have hws : (0 : Nat) < LZSS_WINDOW_SIZE := by decide
  unfold advance
  cases hin : d.input with
  | nil =>
      dsimp only [hin]
      split <;>
      · refine ⟨Nat.mod_lt _ hws, ?_, ?_, ?_, hbl⟩
        · show d.ahead - 1 ≤ LZSS_LOOK_AHEAD_SIZE
          omega
        · show ([] : List Nat) ≠ [] → _
          intro hc
          exact absurd rfl hc
        · show ∀ j, j < d.ahead - 1 →
            d.written (LZSS_MOD_WINDOW (LZSS_MOD_WINDOW (d.winPos + 1) + j)) = true
          intro j hj
          rw [mod_window_add_left]
          have he : d.winPos + 1 + j = d.winPos + (j + 1) := by omega
          rw [he]
          exact hwr (j + 1) (by omega)
  | cons b rest =>
      have hfull : d.ahead = LZSS_LOOK_AHEAD_SIZE := hia (by simp [hin])
      dsimp only [hin]
      split <;>
      · refine ⟨Nat.mod_lt _ hws, ?_, ?_, ?_, hbl⟩
        · show d.ahead ≤ LZSS_LOOK_AHEAD_SIZE
          omega
        · intro _
          show d.ahead = LZSS_LOOK_AHEAD_SIZE
          exact hfull
        · show ∀ j, j < d.ahead →
            (fun jj => if jj = LZSS_MOD_WINDOW (d.winPos + LZSS_LOOK_AHEAD_SIZE) then true
              else d.written jj)
              (LZSS_MOD_WINDOW (LZSS_MOD_WINDOW (d.winPos + 1) + j)) = true
          intro j hj
          dsimp only
          rw [mod_window_add_left]
          have he : d.winPos + 1 + j = d.winPos + (j + 1) := by omega
          rw [he]
          by_cases hlast : j + 1 = LZSS_LOOK_AHEAD_SIZE
          · rw [hlast]
            simp
          · have hW : d.written (LZSS_MOD_WINDOW (d.winPos + (j + 1))) = true :=
              hwr (j + 1) (by omega)
            simp [hW]

theorem litInv_advanceN (n : Nat) (d : Drv) (h : LitInv d) : LitInv (advanceN n d) := by
  induction n generalizing d with
  | zero => exact h
  | succ k ih => exact ih (advance d) (litInv_advance d h)

theorem litInv_mainStep (d : Drv) (hne : d.ahead ≠ 0) (h : LitInv d) :
    LitInv (mainStep d) := by
  obtain ⟨hw, ha, hia, hwr, hbl⟩ := h
  have hlit : d.written d.winPos = true := by
    have h0 := hwr 0 (by omega)
    rwa [Nat.add_zero, mod_window_of_lt hw] at h0
  unfold mainStep
  dsimp only
  split <;> split <;>
    apply litInv_advanceN <;>
    refine ⟨hw, ha, hia, hwr, ?_⟩ <;>
    simp [hlit, hbl]

theorem primeLoop_badLit (fuel : Nat) (d : Drv) :
    (primeLoop fuel d).badLit = d.badLit := by
  induction fuel generalizing d with
  | zero => rfl
  | succ f ih =>
      show (if d.ahead < LZSS_LOOK_AHEAD_SIZE then _ else d).badLit = d.badLit
      split
      · cases hin : d.input with
        | nil => simp [primeLoop, hin]
        | cons b rest => simp only [hin]; rw [ih]
      · rfl

theorem primeInv_primeLoop (fuel : Nat) (d : Drv) (h : PrimeInv d) :
    PrimeInv (primeLoop fuel d) := by
  induction fuel generalizing d with
  | zero => exact h
  | succ f ih =>
      obtain ⟨hw, ha, hwr⟩ := h
      show PrimeInv (if d.ahead < LZSS_LOOK_AHEAD_SIZE then _ else d)
      split
      · rename_i hlt
        cases hin : d.input with
        | nil => simpa [primeLoop, hin] using ⟨hw, ha, hwr⟩
        | cons b rest =>
            simp only [hin]
            apply ih
            refine ⟨hw, ?_, ?_⟩
            · show d.ahead + 1 ≤ LZSS_LOOK_AHEAD_SIZE
              omega
            · intro j hj
              have hj' : j < d.ahead + 1 := hj
              by_cases hlast : j = d.ahead
              · subst hlast
                simp
              · have hjw := hwr j (by omega)
                simp [hjw]
      · exact ⟨hw, ha, hwr⟩

theorem primeLoop_full (fuel : Nat) (d : Drv) (hle : d.ahead ≤ LZSS_LOOK_AHEAD_SIZE)
    (hfuel : LZSS_LOOK_AHEAD_SIZE ≤ d.ahead + fuel) :
    (primeLoop fuel d).input ≠ [] → (primeLoop fuel d).ahead = LZSS_LOOK_AHEAD_SIZE := by
  induction fuel generalizing d with
  | zero =>
      intro _
      show d.ahead = LZSS_LOOK_AHEAD_SIZE
      omega
  | succ f ih =>
      simp only [primeLoop]
      split
      · rename_i hlt
        cases hin : d.input with
        | nil =>
            simp only [hin]
            intro hc
            exact absurd rfl hc
        | cons b rest =>
            simp only [hin]
            apply ih
            · show d.ahead + 1 ≤ LZSS_LOOK_AHEAD_SIZE
              omega
            · show LZSS_LOOK_AHEAD_SIZE ≤ d.ahead + 1 + f
              omega
      · intro _
        omega

theorem compress_badLit_nil (input : List Nat) :
    (LZSS_CompressData input).badLit = [] := by
  unfold LZSS_CompressData
  dsimp only
  have hpi := primeInv_primeLoop LZSS_LOOK_AHEAD_SIZE (Drv.start input)
    ⟨rfl, by show (0 : Nat) ≤ LZSS_LOOK_AHEAD_SIZE; omega,
      fun j hj => absurd hj (by show ¬ j < 0; omega)⟩
  obtain ⟨hw1, ha, hwr⟩ := hpi
  have hfull := primeLoop_full LZSS_LOOK_AHEAD_SIZE (Drv.start input)
    (by show (0 : Nat) ≤ _; omega) (by show LZSS_LOOK_AHEAD_SIZE ≤ 0 + _; omega)
  have key := mainLoop_inv LitInv (fun d hne h => litInv_mainStep d hne h)
    (input.length + 2)
    (d := { primeLoop LZSS_LOOK_AHEAD_SIZE (Drv.start input) with
        m := LZSS_InitTree (primeLoop LZSS_LOOK_AHEAD_SIZE (Drv.start input)).m
          (primeLoop LZSS_LOOK_AHEAD_SIZE (Drv.start input)).winPos })
  have hinit : LitInv { primeLoop LZSS_LOOK_AHEAD_SIZE (Drv.start input) with
      m := LZSS_InitTree (primeLoop LZSS_LOOK_AHEAD_SIZE (Drv.start input)).m
        (primeLoop LZSS_LOOK_AHEAD_SIZE (Drv.start input)).winPos } := by
    refine ⟨?_, ha, hfull, ?_, ?_⟩
    · show (primeLoop LZSS_LOOK_AHEAD_SIZE (Drv.start input)).winPos < _
      rw [hw1]
      decide
    · intro j hj
      have hj' : j < (primeLoop LZSS_LOOK_AHEAD_SIZE (Drv.start input)).ahead := hj
      have hj17 : j < LZSS_LOOK_AHEAD_SIZE := by omega
      have hraw := hwr j hj'
      show (primeLoop LZSS_LOOK_AHEAD_SIZE (Drv.start input)).written
        (LZSS_MOD_WINDOW ((primeLoop LZSS_LOOK_AHEAD_SIZE (Drv.start input)).winPos + j))
          = true
      rw [hw1] at hraw ⊢
      rw [mod_window_of_lt (by
        show 1 + j < LZSS_WINDOW_SIZE
        have h17 : LZSS_LOOK_AHEAD_SIZE = 17 := rfl
        have h1024 : LZSS_WINDOW_SIZE = 1024 := rfl
        omega)]
      exact hraw
    · show (primeLoop LZSS_LOOK_AHEAD_SIZE (Drv.start input)).badLit = []
      rw [primeLoop_badLit]
      rfl
  exact (key hinit).2.2.2.2

/-- **C9** (counterexample).  The claim states that no window slot is read
before being written.  On input `[0x41, 0x41]` the comparison loop of
`LZSS_AddNode` at position 2 compares offset 1 and reads slot 3, which was
never written (only slots 1 and 2 were primed): the run's log of unwritten
slots read by the comparison loop is exactly `[3]`. -/
theorem addNode_reads_unwritten_slot :
    (LZSS_CompressData [65, 65]).badScan = [3] := by decide

/-- **C9** (amended).  For every input sequence, no window slot is read by
the driver's literal emission before that slot has been written during the
current compression run; the byte comparisons of `LZSS_AddNode`, however, can
read slots that were never written (they run over the full
`LZSS_LOOK_AHEAD_SIZE` offsets regardless of how many look-ahead bytes
remain valid, e.g. input `[0x41, 0x41]` reads the never-written slot 3). -/
theorem literal_reads_are_written (input : List Nat) :
    (LZSS_CompressData input).badLit = [] :=
  compress_badLit_nil input

/-! ## Tie-break of the best-match update (claim C8) -/

theorem addLoop_fold (nn : Nat) :
    ∀ (fuel : Nat) (m : Machine) (mLen mPos tn : Nat) (vs : List Visit),
      ∃ newVs, (addLoop nn fuel m mLen mPos tn vs).visits = vs.reverse ++ newVs ∧
        ((addLoop nn fuel m mLen mPos tn vs).matchLen,
          (addLoop nn fuel m mLen mPos tn vs).matchPos) =
            newVs.foldl bestUpd (mLen, mPos) := by
  intro fuel
  induction fuel with
  | zero =>
      intro m mLen mPos tn vs
      exact ⟨[], by simp [addLoop], rfl⟩
  | succ f ih =>
      intro m mLen mPos tn vs
      simp only [addLoop]
      split
      · rename_i hc
        refine ⟨[⟨tn, (scanCmp m.window nn tn).1, (scanCmp m.window nn tn).2⟩], by simp, ?_⟩
        dsimp only
        simp only [List.foldl_cons, List.foldl_nil, bestUpd]
        rw [if_pos hc.1, if_pos hc.1, if_pos hc.1]
      · split <;> split
        all_goals
          first
          | (refine ⟨[⟨tn, (scanCmp m.window nn tn).1, (scanCmp m.window nn tn).2⟩],
                by simp, ?_⟩
             dsimp only
             simp only [List.foldl_cons, List.foldl_nil, bestUpd]
             by_cases hge : (scanCmp m.window nn tn).1 ≥ mLen
             · rw [if_pos hge, if_pos hge, if_pos hge]
             · rw [if_neg hge, if_neg hge, if_neg hge])
          | (rcases ih m
                (if (scanCmp m.window nn tn).1 ≥ mLen then (scanCmp m.window nn tn).1
                  else mLen)
                (if (scanCmp m.window nn tn).1 ≥ mLen then tn else mPos)
                ((m.tree tn).largeChild)
                (⟨tn, (scanCmp m.window nn tn).1, (scanCmp m.window nn tn).2⟩ :: vs)
              with ⟨nv, hvis, hpair⟩
             refine ⟨⟨tn, (scanCmp m.window nn tn).1, (scanCmp m.window nn tn).2⟩ :: nv,
               ?_, ?_⟩
             · rw [hvis]
               simp
             · rw [hpair]
               simp only [List.foldl_cons, bestUpd]
               by_cases hge : (scanCmp m.window nn tn).1 ≥ mLen
               · rw [if_pos hge, if_pos hge, if_pos hge]
               · rw [if_neg hge, if_neg hge, if_neg hge])
          | (rcases ih m
                (if (scanCmp m.window nn tn).1 ≥ mLen then (scanCmp m.window nn tn).1
                  else mLen)
                (if (scanCmp m.window nn tn).1 ≥ mLen then tn else mPos)
                ((m.tree tn).smallChild)
                (⟨tn, (scanCmp m.window nn tn).1, (scanCmp m.window nn tn).2⟩ :: vs)
              with ⟨nv, hvis, hpair⟩
             refine ⟨⟨tn, (scanCmp m.window nn tn).1, (scanCmp m.window nn tn).2⟩ :: nv,
               ?_, ?_⟩
             · rw [hvis]
               simp
             · rw [hpair]
               simp only [List.foldl_cons, bestUpd]
               by_cases hge : (scanCmp m.window nn tn).1 ≥ mLen
               · rw [if_pos hge, if_pos hge, if_pos hge]
               · rw [if_neg hge, if_neg hge, if_neg hge])

theorem foldl_bestUpd_le (vs : List Visit) (acc : Nat × Nat) :
    acc.1 ≤ (vs.foldl bestUpd acc).1 ∧ ∀ u ∈ vs, u.len ≤ (vs.foldl bestUpd acc).1 := by
  induction vs generalizing acc with
  | nil => exact ⟨le_refl _, by simp⟩
  | cons v tl ih =>
      have h1 : acc.1 ≤ (bestUpd acc v).1 := by
        unfold bestUpd
        split
        · rename_i hge
          simpa using hge
        · exact le_refl _
      have h2 : v.len ≤ (bestUpd acc v).1 := by
        unfold bestUpd
        split
        · simp
        · rename_i hlt
          simp only [ge_iff_le, not_le] at hlt
          omega
      obtain ⟨ha, hb⟩ := ih (bestUpd acc v)
      rw [List.foldl_cons]
      refine ⟨le_trans h1 ha, ?_⟩
      intro u hu
      rcases List.mem_cons.mp hu with h3 | h4
      · subst h3
        exact le_trans h2 ha
      · exact hb u h4

theorem foldl_bestUpd_spec (vs : List Visit) (acc : Nat × Nat) :
    (vs.foldl bestUpd acc = acc ∧ ∀ u ∈ vs, u.len < acc.1) ∨
      ∃ pre v post, vs = pre ++ v :: post ∧
        vs.foldl bestUpd acc = (v.len, v.node) ∧
        ∀ u ∈ post, u.len < v.len := by
  induction vs generalizing acc with
  | nil => exact Or.inl ⟨rfl, by simp⟩
  | cons v tl ih =>
      by_cases hc : v.len ≥ acc.1
      · have hstep : List.foldl bestUpd acc (v :: tl) =
            List.foldl bestUpd (v.len, v.node) tl := by
          simp [List.foldl_cons, bestUpd, hc]
        rcases ih (v.len, v.node) with ⟨heq, hall⟩ | ⟨pre, w, post, hsplit, heq, hpost⟩
        · exact Or.inr ⟨[], v, tl, by simp, by rw [hstep, heq], fun u hu => hall u hu⟩
        · exact Or.inr ⟨v :: pre, w, post, by simp [hsplit],
            by rw [hstep]; exact heq, hpost⟩
      · have hstep : List.foldl bestUpd acc (v :: tl) = List.foldl bestUpd acc tl := by
          simp [List.foldl_cons, bestUpd, hc]
        rcases ih acc with ⟨heq, hall⟩ | ⟨pre, w, post, hsplit, heq, hpost⟩
        · refine Or.inl ⟨by rw [hstep, heq], ?_⟩
          intro u hu
          rcases List.mem_cons.mp hu with h1 | h2
          · subst h1
            omega
          · exact hall u h2
        · exact Or.inr ⟨v :: pre, w, post, by simp [hsplit],
            by rw [hstep]; exact heq, hpost⟩

theorem scanLoop_prefix (w : Nat → Nat) (nn tn : Nat) :
    ∀ (fuel i : Nat),
      (∀ j, j < i → w (LZSS_MOD_WINDOW (nn + j)) = w (LZSS_MOD_WINDOW (tn + j))) →
      i ≤ LZSS_LOOK_AHEAD_SIZE →
      LZSS_LOOK_AHEAD_SIZE + 1 ≤ i + fuel →
      ((scanLoop w nn tn fuel i 0).2 = 0 ∧
        (scanLoop w nn tn fuel i 0).1 = LZSS_LOOK_AHEAD_SIZE ∧
        (∀ j, j < LZSS_LOOK_AHEAD_SIZE →
          w (LZSS_MOD_WINDOW (nn + j)) = w (LZSS_MOD_WINDOW (tn + j)))) ∨
      ((scanLoop w nn tn fuel i 0).2 ≠ 0 ∧
        1 ≤ (scanLoop w nn tn fuel i 0).1 ∧
        (scanLoop w nn tn fuel i 0).1 ≤ LZSS_LOOK_AHEAD_SIZE ∧
        (∀ j, j < (scanLoop w nn tn fuel i 0).1 - 1 →
          w (LZSS_MOD_WINDOW (nn + j)) = w (LZSS_MOD_WINDOW (tn + j))) ∧
        w (LZSS_MOD_WINDOW (nn + ((scanLoop w nn tn fuel i 0).1 - 1))) ≠
          w (LZSS_MOD_WINDOW (tn + ((scanLoop w nn tn fuel i 0).1 - 1)))) := by
  intro fuel
  induction fuel with
  | zero =>
      intro i hpre hle hfuel
      omega
  | succ f ih =>
      intro i hpre hle hfuel
      simp only [scanLoop]
      split
      · rename_i hg
        have hi : i < LZSS_LOOK_AHEAD_SIZE := hg.1
        by_cases hδ : (w (LZSS_MOD_WINDOW (nn + i)) : Int) - w (LZSS_MOD_WINDOW (tn + i)) = 0
        · rw [hδ]
          apply ih (i + 1) ?_ (by omega) (by omega)
          intro j hj
          by_cases hji : j = i
          · subst hji
            have := sub_eq_zero.mp hδ
            exact_mod_cast this
          · exact hpre j (by omega)
        · have hstop : scanLoop w nn tn f (i + 1)
              ((w (LZSS_MOD_WINDOW (nn + i)) : Int) - w (LZSS_MOD_WINDOW (tn + i))) =
              (i + 1, (w (LZSS_MOD_WINDOW (nn + i)) : Int) - w (LZSS_MOD_WINDOW (tn + i))) := by
            cases f with
            | zero => rfl
            | succ f2 =>
                simp only [scanLoop]
                rw [if_neg (by
                  intro hc
                  exact hδ hc.2)]
          rw [hstop]
          refine Or.inr ⟨hδ, by omega, by omega, ?_, ?_⟩
          · intro j hj
            exact hpre j (by simpa using hj)
          · have hne : w (LZSS_MOD_WINDOW (nn + i)) ≠ w (LZSS_MOD_WINDOW (tn + i)) := by
              intro hc
              apply hδ
              rw [hc]
              ring
            simpa using hne
      · rename_i hg
        have hi : ¬ i < LZSS_LOOK_AHEAD_SIZE := by
          intro hc
          exact hg ⟨hc, trivial⟩
        have hieq : i = LZSS_LOOK_AHEAD_SIZE := by omega
        subst hieq
        exact Or.inl ⟨rfl, rfl, hpre⟩

/-- The adjusted `i` of the comparison phase is exactly the length of the
longest common prefix (capped at `LZSS_LOOK_AHEAD_SIZE`) of the two modular
window suffixes. -/
theorem scanCmp_prefix (w : Nat → Nat) (nn tn : Nat) :
    ((scanCmp w nn tn).1 = LZSS_LOOK_AHEAD_SIZE ∨
      w (LZSS_MOD_WINDOW (nn + (scanCmp w nn tn).1)) ≠
        w (LZSS_MOD_WINDOW (tn + (scanCmp w nn tn).1))) ∧
    ∀ j, j < (scanCmp w nn tn).1 →
      w (LZSS_MOD_WINDOW (nn + j)) = w (LZSS_MOD_WINDOW (tn + j)) := by
  have h := scanLoop_prefix w nn tn (LZSS_LOOK_AHEAD_SIZE + 1) 0
    (fun j hj => absurd hj (by omega)) (by omega) (by omega)
  unfold scanCmp
  dsimp only
  rcases h with ⟨hz, hlen, hall⟩ | ⟨hnz, h1, h17, hpre, hne⟩
  · rw [if_neg (by simpa using hz)]
    exact ⟨Or.inl hlen, fun j hj => hall j (by omega)⟩
  · rw [if_pos (by simpa using hnz)]
    exact ⟨Or.inr hne, hpre⟩

theorem addLoop_visits_scan (nn : Nat) :
    ∀ (fuel : Nat) (m : Machine) (mLen mPos tn : Nat) (vs : List Visit),
      (∀ v ∈ vs, (v.len, v.delta) = scanCmp m.window nn v.node) →
      ∀ v ∈ (addLoop nn fuel m mLen mPos tn vs).visits,
        (v.len, v.delta) = scanCmp m.window nn v.node := by
  intro fuel
  induction fuel with
  | zero =>
      intro m mLen mPos tn vs h v hv
      simp only [addLoop] at hv
      exact h v (List.mem_reverse.mp hv)
  | succ f ih =>
      intro m mLen mPos tn vs h v hv
      have hcons : ∀ u ∈ (⟨tn, (scanCmp m.window nn tn).1, (scanCmp m.window nn tn).2⟩ :: vs :
          List Visit), (u.len, u.delta) = scanCmp m.window nn u.node := by
        intro u hu
        rcases List.mem_cons.mp hu with h1 | h2
        · subst h1
          rfl
        · exact h u h2
      revert hv
      simp only [addLoop]
      split
      · intro hv
        exact hcons v (List.mem_reverse.mp hv)
      · split <;> split
        all_goals intro hv
        all_goals
          first
            | exact hcons v (List.mem_reverse.mp hv)
            | exact ih m _ _ _ _ hcons v hv

theorem addNode_fold (m : Machine) (nn mp0 : Nat) :
    ((LZSS_AddNode m nn mp0).matchLen, (LZSS_AddNode m nn mp0).matchPos) =
      (LZSS_AddNode m nn mp0).visits.foldl bestUpd (0, mp0) := by
  unfold LZSS_AddNode
  split
  · rfl
  · rcases addLoop_fold nn LOOP_FUEL m 0 mp0 ((m.tree LZSS_TREE_ROOT).largeChild) []
      with ⟨nv, hvis, hpair⟩
    rw [hvis] at *
    simpa using hpair

/-- **C8**.  During the descent of `LZSS_AddNode` the best-match update is the
non-strict fold `bestUpd` over the visited nodes (so a later node with an
equal common-prefix length overwrites `matchPos`); each visit's recorded
length is the longest-common-prefix length of the look-ahead at `newNode`
against that node's window suffix; and for a non-empty comparison path the
returned match position is the last node on the path attaining the maximal
match length — every node after it matches strictly shorter, every node on
the path matches no longer. -/
theorem addNode_last_equal_match_wins (m : Machine) (nn mp0 : Nat) :
    ((LZSS_AddNode m nn mp0).matchLen, (LZSS_AddNode m nn mp0).matchPos) =
      (LZSS_AddNode m nn mp0).visits.foldl bestUpd (0, mp0) ∧
    (∀ v ∈ (LZSS_AddNode m nn mp0).visits,
      (∀ j, j < v.len → m.window (LZSS_MOD_WINDOW (nn + j)) =
        m.window (LZSS_MOD_WINDOW (v.node + j))) ∧
      (v.len = LZSS_LOOK_AHEAD_SIZE ∨
        m.window (LZSS_MOD_WINDOW (nn + v.len)) ≠
          m.window (LZSS_MOD_WINDOW (v.node + v.len)))) ∧
    ((LZSS_AddNode m nn mp0).visits ≠ [] →
      ∃ pre v post, (LZSS_AddNode m nn mp0).visits = pre ++ v :: post ∧
        v.node = (LZSS_AddNode m nn mp0).matchPos ∧
        v.len = (LZSS_AddNode m nn mp0).matchLen ∧
        (∀ u ∈ post, u.len < v.len) ∧
        ∀ u ∈ (LZSS_AddNode m nn mp0).visits, u.len ≤ v.len) := by
  have hfold := addNode_fold m nn mp0
  have hscan : ∀ v ∈ (LZSS_AddNode m nn mp0).visits,
      (v.len, v.delta) = scanCmp m.window nn v.node := by
    unfold LZSS_AddNode
    split
    · intro v hv
      exact absurd hv (List.not_mem_nil v)
    · exact addLoop_visits_scan nn LOOP_FUEL m 0 mp0 _ []
        (fun v hv => absurd hv (List.not_mem_nil v))
  refine ⟨hfold, ?_, ?_⟩
  · intro v hv
    have hsc := hscan v hv
    have hlen : v.len = (scanCmp m.window nn v.node).1 := by
      have := congrArg Prod.fst hsc
      simpa using this
    have hp := scanCmp_prefix m.window nn v.node
    rw [← hlen] at hp
    exact ⟨hp.2, hp.1⟩
  · intro hne
    rcases foldl_bestUpd_spec (LZSS_AddNode m nn mp0).visits (0, mp0) with
      ⟨heq, hall⟩ | ⟨pre, v, post, hsplit, heq, hpost⟩
    · cases hvis : (LZSS_AddNode m nn mp0).visits with
      | nil => exact absurd hvis hne
      | cons u tl =>
          have := hall u (by rw [hvis]; exact List.mem_cons_self u tl)
          omega
    · have hpair : ((LZSS_AddNode m nn mp0).matchLen, (LZSS_AddNode m nn mp0).matchPos)
          = (v.len, v.node) := by rw [hfold, heq]
      have hL : (LZSS_AddNode m nn mp0).matchLen = v.len := by
        have := congrArg Prod.fst hpair
        simpa using this
      have hP : (LZSS_AddNode m nn mp0).matchPos = v.node := by
        have := congrArg Prod.snd hpair
        simpa using this
      refine ⟨pre, v, post, hsplit, hP.symm, hL.symm, hpost, ?_⟩
      intro u hu
      have hle := (foldl_bestUpd_le (LZSS_AddNode m nn mp0).visits (0, mp0)).2 u hu
      rw [heq] at hle
      exact hle

/-- Witness for `addNode_last_equal_match_wins`: the tree `{1}` over the
zero-initialized window, adding position 2 (a full 17-byte match of zeros
against node 1). -/
theorem addNode_last_equal_match_wins_witness :
    (LZSS_AddNode (LZSS_InitTree Machine.init 1) 2 0).visits ≠ [] ∧
      ∃ pre v post, (LZSS_AddNode (LZSS_InitTree Machine.init 1) 2 0).visits
          = pre ++ v :: post ∧
        v.node = (LZSS_AddNode (LZSS_InitTree Machine.init 1) 2 0).matchPos ∧
        v.len = (LZSS_AddNode (LZSS_InitTree Machine.init 1) 2 0).matchLen ∧
        (∀ u ∈ post, u.len < v.len) ∧
        ∀ u ∈ (LZSS_AddNode (LZSS_InitTree Machine.init 1) 2 0).visits, u.len ≤ v.len := by
  have hne : (LZSS_AddNode (LZSS_InitTree Machine.init 1) 2 0).visits ≠ [] := by decide
  exact ⟨hne, (addNode_last_equal_match_wins (LZSS_InitTree Machine.init 1) 2 0).2.2 hne⟩

/-! ## Tree link ranges (claim C7) -/

